import Mathlib

/-!
# Verification of the sobject data-access library

A shallow embedding, in Lean 4, of the core logic of the `sobject`
JavaScript library (property-name translation, SOQL statement synthesis,
CRUD request construction, retry scheduling and transport-error
classification), together with theorems settling the specification's
claims against it.

Sources embedded (file → definitions):
* `src/flatten.js` (together with the `flat` package it delegates to, called
  with `{safe: true}`) → `flattenJS` and friends; the in-place mutation its
  `splice` performs on the input's arrays is modelled by `flattenPost`,
  the value of the *input* after the call.
* `src/convertPropertyNames.js` → `convertPropertyNames` (the mapping
  branch; every operation modelled below passes a mapping, never an array).
* `SObjectStorage` / `SObject` (`getBasicQueryComparison`,
  `getReversePropertyMap`, `getPropertyNames`, `getSalesForcePropertyNames`,
  `convertToSalesForceFormat`, `convertFromSalesForceFormat`,
  `buildQueryStatement`, `_buildQueryPredicate`, `_getBasicQueryComparisons`,
  `_getComplexQueryComparisons`, `update`, `_getRemainingQueryRecords`,
  the `objectName` getter and the URL-path getters).
* `LeftInnerJoinRelationship` → structure of the same name and
  `createQueryComparison`.
* `PromiseHelper` → `executeWithRetryWorker`, `executeWithRetry`.
* `SalesForceConnection._determineIfRequestShouldBeRetried` → the function
  of the same name.

JavaScript semantics modelled explicitly: objects are ordered association
lists with JS insertion-order update/delete (`jsGet`, `jsSet`, `jsDelete`),
truthiness is `jsTruthy`, template-literal stringification is
`jsTemplateString`, `String.prototype.replace` with a string pattern
replaces only the first occurrence (`jsReplaceFirst`), and
`Array.prototype.includes` / `String.prototype.includes` are `List.contains`
/ `jsIncludes`. JS numbers are modelled as `Int` (every number the claims
exercise is integral).
-/

set_option maxHeartbeats 1000000

/-- A JavaScript value as the library manipulates one: string, number,
boolean, `undefined`, array, or plain object (an ordered association list
of fields, unique keys being the ambient JS-object invariant). `null` and
function values never occur in the data the modelled claims exercise. -/
inductive JVal where
  | str (s : String)
  | num (n : Int)
  | bool (b : Bool)
  | undef
  | arr (elems : List JVal)
  | obj (fields : List (String × JVal))
deriving Repr

mutual

/-- Structural equality test on `JVal` (used to state disequalities about
closed values; `jbeq_refl` below gives the reflexivity direction). -/
def jbeq : JVal → JVal → Bool
  | .str a, .str b => a == b
  | .num a, .num b => a == b
  | .bool a, .bool b => a == b
  | .undef, .undef => true
  | .arr xs, .arr ys => jbeqList xs ys
  | .obj fs, .obj gs => jbeqFields fs gs
  | _, _ => false

/-- Elementwise `jbeq` on arrays. -/
def jbeqList : List JVal → List JVal → Bool
  | [], [] => true
  | x :: xs, y :: ys => jbeq x y && jbeqList xs ys
  | _, _ => false

/-- Fieldwise `jbeq` on objects. -/
def jbeqFields : List (String × JVal) → List (String × JVal) → Bool
  | [], [] => true
  | (k, v) :: fs, (l, w) :: gs => k == l && jbeq v w && jbeqFields fs gs
  | _, _ => false

end

/-- JS truthiness: `''`, `0`, `false` and `undefined` are falsy; every
array and object is truthy. -/
def jsTruthy : JVal → Bool
  | .str s => s ≠ ""
  | .num n => n ≠ 0
  | .bool b => b
  | .undef => false
  | .arr _ => true
  | .obj _ => true

/-- Truthiness of an optional string-valued property (`undefined` and the
empty string are falsy). -/
def jsTruthyStr : Option String → Bool
  | some s => s ≠ ""
  | none => false

/-- `typeof v === 'object'` for the values of this model (arrays and plain
objects; `null`, the other `'object'` case, is not modelled). -/
def jsTypeofObject : JVal → Bool
  | .obj _ => true
  | .arr _ => true
  | _ => false

/-- A scalar (non-object, non-array) value. -/
def isScalar (v : JVal) : Bool := !(jsTypeofObject v)

/-- `v === undefined`. -/
def isUndef : JVal → Bool
  | .undef => true
  | _ => false

/-- `o[k]` on a JS object: the value at the first (only) occurrence of the
key. -/
def jsGet {α : Type} (fields : List (String × α)) (k : String) : Option α :=
  (fields.find? (fun kv => kv.1 == k)).map (fun kv => kv.2)

/-- `o[k] = v` on a JS object: overwrite in place when the key exists,
otherwise append (JS insertion order). -/
def jsSet {α : Type} (fields : List (String × α)) (k : String) (v : α) :
    List (String × α) :=
  if fields.any (fun kv => kv.1 == k) then
    fields.map (fun kv => if kv.1 == k then (k, v) else kv)
  else fields ++ [(k, v)]

/-- `delete o[k]` on a JS object. -/
def jsDelete {α : Type} (fields : List (String × α)) (k : String) :
    List (String × α) :=
  fields.filter (fun kv => kv.1 ≠ k)

/-- The keys of a JS object, in insertion order (`Object.keys`). -/
def jsKeys {α : Type} (fields : List (String × α)) : List String :=
  fields.map (fun kv => kv.1)

/-- Whether `pat` is a prefix of the character list. -/
def charsPrefix : List Char → List Char → Bool
  | [], _ => true
  | _ :: _, [] => false
  | p :: ps, c :: cs => p == c && charsPrefix ps cs

/-- The text around the first occurrence of `pat`: `some (before, after)`,
or `none` when `pat` does not occur. -/
def charsFindSplit (pat : List Char) : List Char → Option (List Char × List Char)
  | [] => if pat.isEmpty then some ([], []) else none
  | c :: cs =>
      if charsPrefix pat (c :: cs) then some ([], (c :: cs).drop pat.length)
      else
        match charsFindSplit pat cs with
        | some (pre, post) => some (c :: pre, post)
        | none => none

/-- `String.prototype.includes(needle)`. -/
def jsIncludes (s needle : String) : Bool :=
  (charsFindSplit needle.data s.data).isSome

/-- `String.prototype.replace(pat, rep)` with a *string* pattern: replaces
only the first occurrence of `pat` (the JS semantics that decides claim C2). -/
def jsReplaceFirst (s pat rep : String) : String :=
  match charsFindSplit pat.data s.data with
  | some (pre, post) => String.mk (pre ++ rep.data ++ post)
  | none => s

/-- Template-literal stringification of the leaf values the library
interpolates (`${value}`). -/
def jsTemplateString : JVal → String
  | .str s => s
  | .num n => toString n
  | .bool b => toString b
  | .undef => "undefined"
  | .arr _ => ""
  | .obj _ => "[object Object]"

/-- `Object.keys(x).sort()`: insertion step of the sort (JS default sort is
lexicographic; on the ASCII keys the library uses, `String` order in Lean
coincides with UTF-16 code-unit order). -/
def insertSorted (s : String) : List String → List String
  | [] => [s]
  | t :: rest => if s ≤ t then s :: t :: rest else t :: insertSorted s rest

/-- `Object.keys(x).sort()`: insertion sort by string order. -/
def jsSortKeys : List String → List String
  | [] => []
  | s :: rest => insertSorted s (jsSortKeys rest)

/-!
## `flatten.js` (and the `flat` package with `{safe: true}`)

`flatten(object)` first calls `flat(object, {safe: true})`, producing a
fresh one-level object whose keys are dot-paths through nested mappings and
whose array values are kept as arrays (the *same* array objects as the
input's), then loops over the result's values and, for every array, replaces
each element with `typeof item === 'object'` in place (`splice`) by
`flatten(item)`.

`flattenJS` below computes the *result* of that call. It fuses the two
phases: the `flat` traversal and the later array-element replacement are
combined into one pass (the arrays the loop rewrites are exactly the arrays
`flat` leaves as values, so replacing their object elements at the moment
the leaf is produced yields the same value). `flattenPost` computes the
value of the *input* after the call — the `splice` mutates the input's
arrays through the shared references, which is what claim C4 is about.
-/

mutual

/-- Result of `flatten(v)` for a mapping or array input (the only inputs
the library ever flattens). -/
def flattenJS : JVal → JVal
  | .obj fields => .obj (flattenFields fields)
  | .arr xs => .obj (flattenIdx 0 xs)
  | _ => .obj []

/-- `flat`'s traversal over the fields of a mapping. -/
def flattenFields : List (String × JVal) → List (String × JVal)
  | [] => []
  | (k, v) :: rest => flattenEntry k v ++ flattenFields rest

/-- `flat`'s traversal over an array *input* (`Object.keys` of an array are
its indices, so the paths are prefixed by the decimal index). -/
def flattenIdx : Nat → List JVal → List (String × JVal)
  | _, [] => []
  | i, v :: rest => flattenEntry (toString i) v ++ flattenIdx (i + 1) rest

/-- One value of the traversal: a non-empty mapping is recursed into with a
dot-prefixed path, everything else (scalars, arrays — `safe` — and the
empty mapping) is a leaf; the object elements of a leaf array are replaced
by their flattened versions (the post-`flat` loop of `flatten.js`). -/
def flattenEntry (k : String) : JVal → List (String × JVal)
  | .obj [] => [(k, .obj [])]
  | .obj (f :: fs) =>
      (flattenFields (f :: fs)).map (fun p => (k ++ "." ++ p.1, p.2))
  | .arr xs => [(k, .arr (flattenItems xs))]
  | v => [(k, v)]

/-- The loop of `flatten.js` over one leaf array: each element with
`typeof item === 'object'` is replaced by `flatten(item)`. -/
def flattenItems : List JVal → List JVal
  | [] => []
  | item :: rest =>
      (match item with
        | .obj fs => flattenJS (.obj fs)
        | .arr xs => flattenJS (.arr xs)
        | other => other) :: flattenItems rest

end

mutual

/-- The value of `flatten`'s *input* after the call (the `splice` in
`flatten.js` rewrites, in place, the arrays that `flat` reached through
mapping nesting). The input's mapping shells are untouched; every array in
a value position has its object elements replaced by `flatten(element)`;
a top-level array input is itself only traversed (its elements are in value
positions of the `flat` result, so they are post-processed, not spliced). -/
def flattenPost : JVal → JVal
  | .obj fields => .obj (postFields fields)
  | .arr xs => .arr (postList xs)
  | v => v

/-- Post-state of a mapping's fields. -/
def postFields : List (String × JVal) → List (String × JVal)
  | [] => []
  | (k, v) :: rest => (k, postEntry v) :: postFields rest

/-- Post-state of the elements of a top-level array input (each element is
a value of the `flat` result). -/
def postList : List JVal → List JVal
  | [] => []
  | v :: rest => postEntry v :: postList rest

/-- Post-state of one value position: mappings keep their shell with their
values post-processed; an array in value position is spliced (its object
elements replaced by the `flatten` result); scalars are untouched. -/
def postEntry : JVal → JVal
  | .obj fields => .obj (postFields fields)
  | .arr xs => .arr (postItems xs)
  | v => v

/-- The `splice` loop on one value-position array: elements with
`typeof item === 'object'` are replaced by `flatten(item)`. -/
def postItems : List JVal → List JVal
  | [] => []
  | item :: rest =>
      (match item with
        | .obj fs => flattenJS (.obj fs)
        | .arr xs => flattenJS (.arr xs)
        | other => other) :: postItems rest

end

/-- All elements of a list are scalars. -/
def allScalarItems : List JVal → Bool
  | [] => true
  | v :: rest => isScalar v && allScalarItems rest

mutual

/-- Every array occurring anywhere in the value holds only scalar
elements (the inputs on which `flatten` really is side-effect free). -/
def arraysScalarOnly : JVal → Bool
  | .obj fields => arraysScalarOnlyFields fields
  | .arr xs => allScalarItems xs
  | _ => true

/-- `arraysScalarOnly` over a mapping's fields. -/
def arraysScalarOnlyFields : List (String × JVal) → Bool
  | [] => true
  | (_, v) :: rest => arraysScalarOnly v && arraysScalarOnlyFields rest

end

/-!
## `convertPropertyNames.js`

`convertPropertyNames(obj, propertyNameMap)` (the mapping branch — every
operation modelled here passes a mapping; the argument-validation and
array branches of the source are never reached by the modelled claims):
flatten the object, then loop over a snapshot of its keys; a key present in
the map whose target differs is renamed by `obj[newName] = obj[key];
delete obj[key]` (JS: overwrite in place when the target key exists,
append otherwise, then remove the old key). `capitalizeOthers` is `false`
at every call site the claims reach, and the capitalize branch renames an
unmapped key to its lodash-capitalized form. -/

/-- `_.capitalize`: first character upper-cased, the rest lower-cased. -/
def lodashCapitalize (s : String) : String :=
  (s.take 1).toUpper ++ (s.drop 1).toLower

/-- One iteration of the rename loop for key `k`. -/
def renameStep (propertyNameMap : List (String × String)) (capitalizeOthers : Bool)
    (fields : List (String × JVal)) (k : String) : List (String × JVal) :=
  match jsGet propertyNameMap k with
  | some target =>
      if target ≠ k then
        jsDelete (jsSet fields target ((jsGet fields k).getD .undef)) k
      else fields
  | none =>
      if capitalizeOthers then
        let c := lodashCapitalize k
        if c ≠ k then jsDelete (jsSet fields c ((jsGet fields k).getD .undef)) k
        else fields
      else fields

/-- The rename loop over the snapshot of keys. -/
def renameLoop (propertyNameMap : List (String × String)) (capitalizeOthers : Bool)
    (fields : List (String × JVal)) : List String → List (String × JVal)
  | [] => fields
  | k :: ks => renameLoop propertyNameMap capitalizeOthers
      (renameStep propertyNameMap capitalizeOthers fields k) ks

/-- `convertPropertyNames` on a mapping: flatten, then rename every
snapshot key per the map. -/
def convertPropertyNames (fields : List (String × JVal))
    (propertyNameMap : List (String × String)) (capitalizeOthers : Bool := false) :
    List (String × JVal) :=
  let flat := flattenFields fields
  renameLoop propertyNameMap capitalizeOthers flat (jsKeys flat)

/-!
## `LeftInnerJoinRelationship` and `getBasicQueryComparison`
-/

/-- The `relatedObject` option of a `LeftInnerJoinRelationship`. -/
structure RelatedObject where
  name : String
  comparisonProperty : String
  queryValueProperty : String
deriving Repr, DecidableEq

/-- A validated `LeftInnerJoinRelationship` (construction validates that
all the fields are present; a constructed value always has them). -/
structure LeftInnerJoinRelationship where
  property : String
  relatedObject : RelatedObject
deriving Repr, DecidableEq

mutual

/-- `getBasicQueryComparison(property, value)` from `SObject`: quoted
string comparison (escaping via `value.replace('\'', '\\\'')`, which
replaces only the *first* quote), parenthesised OR-group for an array, and
unquoted stringification otherwise. -/
def getBasicQueryComparison (property : String) : JVal → String
  | .str s =>
      property ++ " = '" ++ jsReplaceFirst s "'" "\\'" ++ "'"
  | .arr xs =>
      "(" ++ String.intercalate " OR " (orParts property xs) ++ ")"
  | v => property ++ " = " ++ jsTemplateString v

/-- The recursive per-element comparisons of an OR-group. -/
def orParts (property : String) : List JVal → List String
  | [] => []
  | v :: rest => getBasicQueryComparison property v :: orParts property rest

end

/-- `createQueryComparison(value)`: the subquery comparison of a
left-inner-join relationship. -/
def LeftInnerJoinRelationship.createQueryComparison
    (rel : LeftInnerJoinRelationship) (value : JVal) : String :=
  rel.property ++ " IN (SELECT " ++ rel.relatedObject.comparisonProperty ++
    " FROM " ++ rel.relatedObject.name ++ " WHERE " ++
    getBasicQueryComparison rel.relatedObject.queryValueProperty value ++ ")"

/-!
## `SObject` / `SObjectStorage`
-/

/-- One value of the property map: a plain remote-name string, or a
`LeftInnerJoinRelationship` (the source's runtime `typeof`/`instanceof`
tests become the variant tag). -/
inductive PropValue where
  | basic (remoteName : String)
  | join (rel : LeftInnerJoinRelationship)
deriving Repr, DecidableEq

/-- The property map: friendly name → `PropValue`, in insertion order. -/
abbrev PropertyMap : Type := List (String × PropValue)

/-- The configuration an `SObject` instance carries for the claims
modelled here: the constructor-captured `_objectName` (already
`options.objectName || options.salesForceObjectName`), an overridden legacy
`salesForceObjectName` getter if any, and the validated `_apiVersion`. -/
structure SObjectConfig where
  _objectName : Option String := none
  salesForceObjectName : Option String := none
  _apiVersion : String := "34.0"

/-- What the `objectName` getter produces: the name, or — when neither
source of a name is set — the `NotImplementedError` *returned* (not thrown)
by the getter. -/
inductive ObjectNameResult where
  | name (s : String)
  | notImplementedError
deriving Repr, DecidableEq

/-- The `objectName` getter: `if (this._objectName) return it; if
(this.salesForceObjectName) return it; return new NotImplementedError()`.
Note the error object is returned, not thrown. -/
def SObjectConfig.objectName (cfg : SObjectConfig) : ObjectNameResult :=
  if jsTruthyStr cfg._objectName then .name (cfg._objectName.getD "")
  else if jsTruthyStr cfg.salesForceObjectName then
    .name (cfg.salesForceObjectName.getD "")
  else .notImplementedError

/-- How a template literal renders the getter's result. A
`NotImplementedError` built with no message has `name =
'NotImplementedError'` and `message = undefined` (see `ExtendableError`),
so `Error.prototype.toString` renders just the name. -/
def ObjectNameResult.interpolate : ObjectNameResult → String
  | .name s => s
  | .notImplementedError => "NotImplementedError"

/-- `getReversePropertyMap()`: invert only the string-valued entries
(`reverseMap[value] = key` in a loop, with JS overwrite-in-place on a
repeated remote name). -/
def getReversePropertyMap (pm : PropertyMap) : List (String × String) :=
  pm.foldl
    (fun reverseMap kv =>
      match kv.2 with
      | .basic s => jsSet reverseMap s kv.1
      | .join _ => reverseMap)
    []

/-- `getPropertyNames()`: the friendly names, sorted. -/
def getPropertyNames (pm : PropertyMap) : List String :=
  jsSortKeys (jsKeys pm)

/-- `getSalesForcePropertyNames()`: the keys of the reverse map, sorted. -/
def getSalesForcePropertyNames (pm : PropertyMap) : List String :=
  jsSortKeys (jsKeys (getReversePropertyMap pm))

/-- The string-valued entries of the property map, in order — exactly the
entries that survive `convertToSalesForceFormat`'s
`delete propertyMap[key]` loop, and the name map it passes to
`convertPropertyNames`. -/
def basicEntries (pm : PropertyMap) : List (String × String) :=
  pm.filterMap
    (fun kv =>
      match kv.2 with
      | .basic s => some (kv.1, s)
      | .join _ => none)

/-- The property map after `convertToSalesForceFormat`'s
`delete propertyMap[key]` loop removed every non-string entry. Because the
default `getPropertyMap()` returns `Promise.resolve(this.propertyMap)` —
the instance's own object, not a copy — this is the state the *instance's*
property map is left in (claim C3). -/
def deleteJoinEntries (pm : PropertyMap) : PropertyMap :=
  pm.filter
    (fun kv =>
      match kv.2 with
      | .basic _ => true
      | .join _ => false)

/-- One iteration of `convertToSalesForceFormat`'s drop loop for converted
key `k`: drop it when it is not (truthily) in the reverse map, its value is
`undefined`, or it is dot-nested and nested properties are excluded. -/
def dropStep (reverseMap : List (String × String)) (includeNestedProperties : Bool)
    (fields : List (String × JVal)) (k : String) : List (String × JVal) :=
  let isNestedProperty := jsIncludes k "."
  let value := (jsGet fields k).getD .undef
  if !(jsTruthyStr (jsGet reverseMap k)) || isUndef value ||
      (isNestedProperty && !includeNestedProperties) then
    jsDelete fields k
  else fields

/-- The drop loop over the snapshot of the converted entity's keys. -/
def dropLoop (reverseMap : List (String × String)) (includeNestedProperties : Bool)
    (fields : List (String × JVal)) : List String → List (String × JVal)
  | [] => fields
  | k :: ks => dropLoop reverseMap includeNestedProperties
      (dropStep reverseMap includeNestedProperties fields k) ks

/-- `convertToSalesForceFormat(entity, {includeNestedProperties})` on a
mapping entity: build the reverse map, delete the non-string entries from
the (shared) property map, rename via `convertPropertyNames` with the
remaining string-only map, then drop unknown/undefined/nested keys.
Result: the converted fields, paired with the property map as the call
leaves it. (`includeAttributesProperty`, used only by the bulk array
variant, is exercised by no claim and is omitted.) -/
def convertToSalesForceFormat (pm : PropertyMap) (entity : List (String × JVal))
    (includeNestedProperties : Bool := false) :
    List (String × JVal) × PropertyMap :=
  let reverseMap := getReversePropertyMap pm
  let pmAfter := deleteJoinEntries pm
  let converted := convertPropertyNames entity (basicEntries pm)
  (dropLoop reverseMap includeNestedProperties converted (jsKeys converted), pmAfter)

/-- `_.pick(obj, names)`: the named keys that exist, in the order of
`names`, keeping their values (a key whose value is `undefined` still
exists and is picked). Lodash's deep-path reading of a dotted name is
taken only when the dotted name is absent as a literal key; no modelled
claim reaches that case. -/
def lodashPick (fields : List (String × JVal)) (names : List String) :
    List (String × JVal) :=
  names.filterMap (fun n => (jsGet fields n).map (fun v => (n, v)))

/-- `convertFromSalesForceFormat(entity)` on a mapping entity: rename with
the reverse map, then restrict to the declared friendly names. -/
def convertFromSalesForceFormat (pm : PropertyMap) (entity : List (String × JVal)) :
    List (String × JVal) :=
  let reverseMap := getReversePropertyMap pm
  let propertyNames := getPropertyNames pm
  lodashPick (convertPropertyNames entity reverseMap) propertyNames

/-- `_getBasicQueryComparisons(options)`: convert the query options with
`includeNestedProperties: true`, sort the converted keys, and build one
basic comparison per key. -/
def _getBasicQueryComparisons (pm : PropertyMap) (options : List (String × JVal)) :
    List String :=
  let basicQueryProps := (convertToSalesForceFormat pm options true).1
  (jsSortKeys (jsKeys basicQueryProps)).map
    (fun k => getBasicQueryComparison k ((jsGet basicQueryProps k).getD .undef))

/-- `_getComplexQueryComparisons(options)`: for every option key whose
property-map entry is a `LeftInnerJoinRelationship`, its subquery
comparison, in the options' own order. -/
def _getComplexQueryComparisons (pm : PropertyMap) (options : List (String × JVal)) :
    List String :=
  options.filterMap
    (fun kv =>
      match jsGet pm kv.1 with
      | some (.join rel) => some (rel.createQueryComparison kv.2)
      | _ => none)

/-- `_buildQueryPredicate(options)`: empty for absent/empty options,
otherwise `WHERE` and the basic-then-complex comparisons joined by
`AND`. -/
def _buildQueryPredicate (pm : PropertyMap) (options : Option (List (String × JVal))) :
    String :=
  match options with
  | none => ""
  | some opts =>
      if opts.isEmpty then ""
      else
        "WHERE " ++ String.intercalate " AND "
          (_getBasicQueryComparisons pm opts ++ _getComplexQueryComparisons pm opts)

/-- `buildQueryStatement(options)`. The `FROM` target is the template
interpolation of whatever the `objectName` getter produced — which, when no
name is configured, is the returned `NotImplementedError` object (claim
C5). -/
def buildQueryStatement (pm : PropertyMap) (cfg : SObjectConfig)
    (options : Option (List (String × JVal))) : String :=
  "SELECT " ++ String.intercalate ", " (getSalesForcePropertyNames pm) ++
    " FROM " ++ cfg.objectName.interpolate ++ " " ++
    _buildQueryPredicate pm options ++ " ORDER BY CreatedDate DESC"

/-- `this._dataServicesUrlPath`. -/
def _dataServicesUrlPath (cfg : SObjectConfig) : String :=
  "services/data/v" ++ cfg._apiVersion ++ "/"

/-- `this._objectUrlPath`. -/
def _objectUrlPath (cfg : SObjectConfig) : String :=
  _dataServicesUrlPath cfg ++ "sobjects/" ++ cfg.objectName.interpolate ++ "/"

/-- The options of one `connection.request(...)` call. -/
structure RequestOptions where
  url : String
  method : String
  json : JVal
deriving Repr

/-- What one `update(entity)` call amounts to: a rejected
parameter validation, a short-circuit with no network request, or a single
request plus the returned `{id}` value. -/
inductive UpdateOutcome where
  | validationError
  | noRequest (returnValue : List (String × JVal))
  | requested (request : RequestOptions) (returnValue : List (String × JVal))

/-- `update(entity)`: `validateAsync(entity, ['id'])` (parameter-validator
rejects an absent — or falsy, per the library's validation semantics —
`id`), clone, `delete entity.id`, short-circuit to `{id}` when no keys
remain, otherwise convert the remainder and issue a `patch` addressed by
the id. The deep clone has no observable effect in a pure model. -/
def update (pm : PropertyMap) (cfg : SObjectConfig)
    (entity : List (String × JVal)) : UpdateOutcome :=
  match jsGet entity "id" with
  | none => .validationError
  | some idv =>
      if jsTruthy idv then
        let entityRest := jsDelete entity "id"
        let returnValue := [("id", idv)]
        if entityRest.length = 0 then .noRequest returnValue
        else
          .requested
            { url := _objectUrlPath cfg ++ jsTemplateString idv
              method := "patch"
              json := .obj (convertToSalesForceFormat pm entityRest).1 }
            returnValue
      else .validationError

/-- One page of a query response (`records`, `done`, `nextRecordsUrl`,
each possibly absent). -/
structure QueryResponse where
  records : List JVal
  done : Option Bool := none
  nextRecordsUrl : Option String := none

/-- `_getRemainingQueryRecords(queryResponse)`: when `done === false` and
`nextRecordsUrl` is truthy, fetch the next page and concatenate; otherwise
return the records at hand. The network is a function from URL to an
optional response (`none` = request failure), and `fuel` bounds the
recursion (the source recursion is bounded only by the server's cursor
chain; `none` also stands for a chain longer than the fuel). -/
def _getRemainingQueryRecords (fetch : String → Option QueryResponse) :
    Nat → QueryResponse → Option (List JVal)
  | 0, resp =>
      if resp.done = some false ∧ jsTruthyStr resp.nextRecordsUrl = true then none
      else some resp.records
  | fuel + 1, resp =>
      if resp.done = some false ∧ jsTruthyStr resp.nextRecordsUrl = true then
        match resp.nextRecordsUrl with
        | some url =>
            (fetch url).bind fun nextResponse =>
              (_getRemainingQueryRecords fetch fuel nextResponse).map
                (fun remainingRecords => resp.records ++ remainingRecords)
        | none => none
      else some resp.records

/-!
## `PromiseHelper` (retry with exponential backoff)
-/

/-- The delay computed at the top of `executeWithRetryWorker`:
`currentRetry ? Math.pow(2, currentRetry) * retryBackoffFactor : 0`. -/
def exponentialBackoffMs (currentRetry retryBackoffFactor : Nat) : Nat :=
  if currentRetry = 0 then 0 else 2 ^ currentRetry * retryBackoffFactor

/-- What one `executeWithRetry` run amounts to: the settled result, how
many times the operation was invoked, and the delay scheduled before each
invocation, in order. -/
structure RetryOutcome (ε α : Type) where
  result : Except ε α
  attempts : Nat
  delays : List Nat

/-- `executeWithRetryWorker`: wait the backoff, invoke the operation (the
provider is indexed by the attempt's `currentRetry`, so each invocation may
settle differently), and on failure retry with `currentRetry + 1` exactly
when `currentRetry < maxRetries && retryPredicate(err, currentRetry)`. -/
def executeWithRetryWorker {ε α : Type} (promiseProvider : Nat → Except ε α)
    (retryPredicate : ε → Nat → Bool) (maxRetries currentRetry retryBackoffFactor : Nat) :
    RetryOutcome ε α :=
  let exponentialBackoff := exponentialBackoffMs currentRetry retryBackoffFactor
  match promiseProvider currentRetry with
  | .ok a => { result := .ok a, attempts := 1, delays := [exponentialBackoff] }
  | .error err =>
      if h : currentRetry < maxRetries ∧ retryPredicate err currentRetry = true then
        let rest := executeWithRetryWorker promiseProvider retryPredicate
          maxRetries (currentRetry + 1) retryBackoffFactor
        { result := rest.result, attempts := rest.attempts + 1,
          delays := exponentialBackoff :: rest.delays }
      else { result := .error err, attempts := 1, delays := [exponentialBackoff] }
termination_by maxRetries - currentRetry
decreasing_by omega

/-- The options object of `executeWithRetry`. -/
structure RetryOptions (ε : Type) where
  maxRetries : Option Nat := none
  retryBackoffFactor : Option Nat := none
  retryPredicate : Option (ε → Nat → Bool) := none

/-- `options.x || default` for a numeric option: `0` (and absence) falls
back to the default — the falsy-default readings that decide claim C10. -/
def jsOrDefault (v : Option Nat) (dflt : Nat) : Nat :=
  match v with
  | some n => if n = 0 then dflt else n
  | none => dflt

/-- `executeWithRetry(promiseProvider, options)`: read the options with
`||`-defaults (`maxRetries` 9, `retryBackoffFactor` 50, always-true
predicate) and run the worker from `currentRetry = 0`. -/
def executeWithRetry {ε α : Type} (promiseProvider : Nat → Except ε α)
    (options : Option (RetryOptions ε)) : RetryOutcome ε α :=
  let opts := options.getD {}
  let maxRetries := jsOrDefault opts.maxRetries 9
  let retryBackoffFactor := jsOrDefault opts.retryBackoffFactor 50
  let retryPredicate := opts.retryPredicate.getD (fun _ _ => true)
  executeWithRetryWorker promiseProvider retryPredicate maxRetries 0 retryBackoffFactor

/-!
## `SalesForceConnection._determineIfRequestShouldBeRetried`
-/

/-- A transport error as the retry predicate sees one: an optional HTTP
status code and an optional message. -/
structure RequestError where
  statusCode : Option Int := none
  message : Option String := none

/-- `error.message && error.message.includes(needle)`. -/
def RequestError.messageIncludes (error : RequestError) (needle : String) : Bool :=
  match error.message with
  | some m => jsIncludes m needle
  | none => false

/-- `_determineIfRequestShouldBeRetried(error, currentRetry)`, line for
line: `retryable` is initialised to
`statusCodesToNotRetry.includes(statusCode)` (note: *no* negation in the
source), and for a 400/500 the two transient-condition branches only log —
they leave `retryable` as initialised — while the final branch clears it. -/
def _determineIfRequestShouldBeRetried (error : RequestError)
    (currentRetry : Nat) : Bool :=
  let statusCodesToNotRetry : List Int := [404, 410, 403]
  let retryable :=
    match error.statusCode with
    | some c => statusCodesToNotRetry.contains c
    | none => false
  let _ := currentRetry
  if error.statusCode = some 400 ∨ error.statusCode = some 500 then
    if error.messageIncludes "UNABLE_TO_LOCK_ROW" then retryable
    else if error.messageIncludes "QUERY_TIMEOUT" then retryable
    else false
  else retryable

/-!
## Shared lemmas
-/

mutual

/-- `jbeq` is reflexive. -/
theorem jbeq_refl : ∀ v : JVal, jbeq v v = true
  | .str _ => by simp [jbeq]
  | .num _ => by simp [jbeq]
  | .bool _ => by simp [jbeq]
  | .undef => by simp [jbeq]
  | .arr xs => by simpa [jbeq] using jbeqList_refl xs
  | .obj fs => by simpa [jbeq] using jbeqFields_refl fs

/-- `jbeqList` is reflexive. -/
theorem jbeqList_refl : ∀ xs : List JVal, jbeqList xs xs = true
  | [] => rfl
  | x :: xs => by simp [jbeqList, jbeq_refl x, jbeqList_refl xs]

/-- `jbeqFields` is reflexive. -/
theorem jbeqFields_refl : ∀ fs : List (String × JVal), jbeqFields fs fs = true
  | [] => rfl
  | (_, v) :: fs => by simp [jbeqFields, jbeq_refl v, jbeqFields_refl fs]

end

/-- Distinct `jbeq` classes give distinct values. -/
theorem ne_of_jbeq_false {a b : JVal} (h : jbeq a b = false) : a ≠ b := by
  intro he
  subst he
  rw [jbeq_refl] at h
  cases h

/-!
## Claim theorems
-/

def eC1a : RequestError := { statusCode := some 404 }

def eC1b : RequestError := { statusCode := some 410 }

def eC1c : RequestError := { statusCode := some 403 }

def eC1d : RequestError := { statusCode := some 502 }

def eC1e : RequestError :=
  { statusCode := some 400,
    message := some "badness: UNABLE_TO_LOCK_ROW: unable to obtain exclusive access" }

def eC1f : RequestError := { statusCode := some 500, message := some "QUERY_TIMEOUT hit" }

/-- C1: the retry classification is *inverted* relative to the claim.
`retryable` is initialised to `statusCodesToNotRetry.includes(statusCode)`
— without the negation the method's own comments describe — so 404/410/403
come out retryable, every other non-400/500 status comes out non-retryable,
and a 400/500 carrying the row-lock or query-timeout signal is still
non-retryable (the two branches only log). -/
theorem determineIfRequestShouldBeRetried_inverted :
    _determineIfRequestShouldBeRetried eC1a 0 = true ∧
    _determineIfRequestShouldBeRetried eC1b 0 = true ∧
    _determineIfRequestShouldBeRetried eC1c 0 = true ∧
    _determineIfRequestShouldBeRetried eC1d 0 = false ∧
    _determineIfRequestShouldBeRetried eC1e 0 = false ∧
    _determineIfRequestShouldBeRetried eC1f 0 = false :=
  ⟨rfl, rfl, rfl, rfl, rfl, rfl⟩

/-- C2: `getBasicQueryComparison` escapes only the *first* single quote of
a string value (`String.prototype.replace` with a string pattern), so for a
value with two or more quotes the produced fragment leaves the later quotes
unescaped — here the second quote of `a'b'c` terminates the SOQL string
literal early. -/
theorem getBasicQueryComparison_escapes_only_first_quote :
    getBasicQueryComparison "name" (.str "a'b'c") = "name = 'a\\'b'c'" ∧
    jsReplaceFirst "a'b'c" "'" "\\'" = "a\\'b'c" :=
  ⟨rfl, rfl⟩

def relC3 : LeftInnerJoinRelationship :=
  { property := "Account__c",
    relatedObject :=
      { name := "Organization__c", comparisonProperty := "Account__c",
        queryValueProperty := "Org_ID__c" } }

def pmC3 : PropertyMap := [("name", .basic "Name"), ("organizationId", .join relC3)]

/-- C3: `convertToSalesForceFormat` deletes every
`LeftInnerJoinRelationship` entry from the property map it reads through
`getPropertyMap()` — the instance's own object, not a copy — so the entry
present before the call is gone from the instance's map afterwards. -/
theorem convertToSalesForceFormat_deletes_relationship_entries :
    jsGet pmC3 "organizationId" = some (.join relC3) ∧
    (convertToSalesForceFormat pmC3 [("name", .str "Fluffy")]).2 =
      [("name", .basic "Name")] ∧
    jsGet (convertToSalesForceFormat pmC3 [("name", .str "Fluffy")]).2
      "organizationId" = none :=
  ⟨rfl, rfl, rfl⟩

def cfgC5 : SObjectConfig := {}

def pmC5 : PropertyMap := [("name", .basic "Name")]

/-- C5: with no collection name configured, the `objectName` getter
*returns* a `NotImplementedError` instead of throwing it, so
`buildQueryStatement` completes and interpolates the error object's string
form into the `FROM` clause rather than failing. -/
theorem buildQueryStatement_embeds_returned_error :
    cfgC5.objectName = .notImplementedError ∧
    buildQueryStatement pmC5 cfgC5 none =
      "SELECT Name FROM NotImplementedError  ORDER BY CreatedDate DESC" :=
  ⟨rfl, rfl⟩

def inC4 : JVal := .obj [("a", .arr [.obj [("b", .obj [("c", .num 1)])], .num 2])]

/-- C4 counterexample: `flatten` is not side-effect free. For a mapping
whose array holds an object element, the `splice` in `flatten.js` replaces
that element — inside the *input's* array — by its flattened version, so
the input is changed by the call. -/
theorem flatten_mutates_array_elements :
    flattenPost inC4 ≠ inC4 ∧
    flattenPost inC4 = .obj [("a", .arr [.obj [("b.c", .num 1)], .num 2])] :=
  ⟨ne_of_jbeq_false rfl, rfl⟩

/-- `postEntry` leaves a scalar unchanged. -/
theorem postEntry_scalar {v : JVal} (h : isScalar v = true) : postEntry v = v := by
  cases v <;> simp [isScalar, jsTypeofObject] at h <;> rfl

/-- `postItems` leaves an all-scalar array unchanged. -/
theorem postItems_scalar : ∀ xs : List JVal, allScalarItems xs = true → postItems xs = xs := by
  intro xs h
  induction xs with
  | nil => rfl
  | cons x rest ih =>
      rw [allScalarItems, Bool.and_eq_true] at h
      obtain ⟨h1, h2⟩ := h
      cases x <;> simp [isScalar, jsTypeofObject] at h1 <;> simp [postItems, ih h2]

mutual

theorem postEntry_id : ∀ v : JVal, arraysScalarOnly v = true → postEntry v = v
  | .obj fields, h => by
      simp only [postEntry, JVal.obj.injEq]
      exact postFields_id fields (by simpa [arraysScalarOnly] using h)
  | .arr xs, h => by
      simp only [postEntry, JVal.arr.injEq]
      exact postItems_scalar xs (by simpa [arraysScalarOnly] using h)
  | .str _, _ => rfl
  | .num _, _ => rfl
  | .bool _, _ => rfl
  | .undef, _ => rfl

theorem postFields_id : ∀ fs : List (String × JVal),
    arraysScalarOnlyFields fs = true → postFields fs = fs
  | [], _ => rfl
  | (k, v) :: rest, h => by
      have h' : arraysScalarOnly v = true ∧ arraysScalarOnlyFields rest = true := by
        simpa [arraysScalarOnlyFields] using h
      simp [postFields, postEntry_id v h'.1, postFields_id rest h'.2]

end

/-- `postList` is the identity when every element stays unchanged. -/
theorem postList_id : ∀ xs : List JVal, allScalarItems xs = true → postList xs = xs := by
  intro xs h
  induction xs with
  | nil => rfl
  | cons x rest ih =>
      rw [allScalarItems, Bool.and_eq_true] at h
      simp [postList, postEntry_scalar h.1, ih h.2]

/-- C4 amended: `flatten`'s result is a function of its input alone, and
the call leaves the input unchanged *provided* every array in the input
holds only scalar elements; an object (or array) element of an array is
replaced in place by its flattened version. -/
theorem flatten_input_unchanged_when_arrays_scalar :
    ∀ v : JVal, arraysScalarOnly v = true → flattenPost v = v
  | .obj fields, h => by
      simp only [flattenPost, JVal.obj.injEq]
      exact postFields_id fields (by simpa [arraysScalarOnly] using h)
  | .arr xs, h => by
      simp only [flattenPost, JVal.arr.injEq]
      exact postList_id xs (by simpa [arraysScalarOnly] using h)
  | .str _, _ => rfl
  | .num _, _ => rfl
  | .bool _, _ => rfl
  | .undef, _ => rfl

def inC4w : JVal :=
  .obj [("a", .arr [.num 1, .str "x"]), ("b", .obj [("c", .bool true), ("d", .undef)])]

/-- C4 witness: a concrete nested input whose arrays hold only scalars is
left unchanged. -/
theorem flatten_input_unchanged_witness :
    arraysScalarOnly inC4w = true ∧ flattenPost inC4w = inC4w :=
  ⟨rfl, flatten_input_unchanged_when_arrays_scalar inC4w rfl⟩

/-- A well-linked cursor chain: every page but the last has `done: false`
and a non-empty `nextRecordsUrl` that the network resolves to the next
page; the last page fails the continue condition (its `done` flag is not
`false`, or its cursor is missing/empty). -/
def pageChain (fetch : String → Option QueryResponse) : List QueryResponse → Prop
  | [] => True
  | [last] => ¬(last.done = some false ∧ jsTruthyStr last.nextRecordsUrl = true)
  | r :: next :: rest =>
      r.done = some false ∧
      (∃ url, r.nextRecordsUrl = some url ∧ url ≠ "" ∧ fetch url = some next) ∧
      pageChain fetch (next :: rest)

/-- Stop case of `_getRemainingQueryRecords`: when the `done` flag is not
`false` or the cursor is missing/empty, the records at hand come back and
the network function is never consulted (the result does not depend on
it). -/
theorem getRemainingQueryRecords_stop
    (fetch : String → Option QueryResponse) (fuel : Nat) (resp : QueryResponse)
    (h : ¬(resp.done = some false ∧ jsTruthyStr resp.nextRecordsUrl = true)) :
    _getRemainingQueryRecords fetch fuel resp = some resp.records := by
  cases fuel <;> (rw [_getRemainingQueryRecords]; rw [if_neg h])

/-- Chain case of `_getRemainingQueryRecords`: the result is the pages'
records concatenated in order. -/
theorem getRemainingQueryRecords_of_chain
    (fetch : String → Option QueryResponse) :
    ∀ (pages : List QueryResponse) (first : QueryResponse) (fuel : Nat),
      pageChain fetch (first :: pages) → pages.length ≤ fuel →
      _getRemainingQueryRecords fetch fuel first =
        some (((first :: pages).map QueryResponse.records).flatten) := by
  intro pages
  induction pages with
  | nil =>
      intro first fuel hchain _
      rw [getRemainingQueryRecords_stop fetch fuel first hchain]
      simp
  | cons next rest ih =>
      intro first fuel hchain hfuel
      obtain ⟨hdone, ⟨url, hurl, hne, hfetch⟩, hrest⟩ := hchain
      match fuel with
      | 0 => simp at hfuel
      | fuel + 1 =>
          rw [_getRemainingQueryRecords,
            if_pos ⟨hdone, by simp [hurl, jsTruthyStr, hne]⟩]
          simp only [hurl, hfetch, Option.some_bind]
          rw [ih next fuel hrest (by simpa using hfuel)]
          simp

/-- C7: pagination. Along a chain of responses each carrying `done: false`
and a non-empty next-page cursor that resolves to the next page, the final
result is the concatenation of all pages' records in order; and whenever
the `done` flag or the cursor is missing (or the flag is not `false`), no
further fetch happens — the records received so far come back, whatever
the network function is. -/
theorem query_pagination_concatenates_pages :
    (∀ (fetch : String → Option QueryResponse) (pages : List QueryResponse)
        (first : QueryResponse) (fuel : Nat),
      pageChain fetch (first :: pages) → pages.length ≤ fuel →
      _getRemainingQueryRecords fetch fuel first =
        some (((first :: pages).map QueryResponse.records).flatten)) ∧
    (∀ (fetch : String → Option QueryResponse) (fuel : Nat) (resp : QueryResponse),
      ¬(resp.done = some false ∧ jsTruthyStr resp.nextRecordsUrl = true) →
      _getRemainingQueryRecords fetch fuel resp = some resp.records) :=
  ⟨getRemainingQueryRecords_of_chain, getRemainingQueryRecords_stop⟩

def pageC7c : QueryResponse := { records := [.str "r3"], done := some true }

def pageC7b : QueryResponse :=
  { records := [.str "r1", .str "r2"], done := some false, nextRecordsUrl := some "u2" }

def pageC7a : QueryResponse :=
  { records := [.str "r0"], done := some false, nextRecordsUrl := some "u1" }

def fetchC7 : String → Option QueryResponse := fun url =>
  if url == "u1" then some pageC7b else if url == "u2" then some pageC7c else none

/-- C7 witness: a concrete three-page chain concatenates in order, and a
concrete response with a cursor but `done: true` stops at once. -/
theorem query_pagination_witness :
    _getRemainingQueryRecords fetchC7 2 pageC7a =
      some [.str "r0", .str "r1", .str "r2", .str "r3"] ∧
    _getRemainingQueryRecords fetchC7 9
      { records := [.str "only"], done := some true, nextRecordsUrl := some "u1" } =
      some [.str "only"] :=
  ⟨query_pagination_concatenates_pages.1 fetchC7 [pageC7b, pageC7c] pageC7a 2
      ⟨rfl, ⟨"u1", rfl, by decide, rfl⟩, rfl, ⟨"u2", rfl, by decide, rfl⟩,
        by simp [pageChain, pageC7c, jsTruthyStr]⟩
      (by decide),
    query_pagination_concatenates_pages.2 fetchC7 9 _ (by simp [jsTruthyStr])⟩

/-- C8: `update(entity)` rejects with a validation error when the entity
has no (truthy) `id`; otherwise it strips `id` from the payload, returns
`{id}` with no request at all when nothing else remains, and otherwise
issues exactly one `patch` request addressed by the id whose body is the
converted remainder, returning `{id}`. -/
theorem update_strips_id_and_patches :
    ∀ (pm : PropertyMap) (cfg : SObjectConfig) (entity : List (String × JVal)),
      (jsGet entity "id" = none → update pm cfg entity = .validationError) ∧
      (∀ idv, jsGet entity "id" = some idv → jsTruthy idv = false →
        update pm cfg entity = .validationError) ∧
      (∀ idv, jsGet entity "id" = some idv → jsTruthy idv = true →
        jsDelete entity "id" = [] →
        update pm cfg entity = .noRequest [("id", idv)]) ∧
      (∀ idv, jsGet entity "id" = some idv → jsTruthy idv = true →
        jsDelete entity "id" ≠ [] →
        update pm cfg entity = .requested
          { url := _objectUrlPath cfg ++ jsTemplateString idv
            method := "patch"
            json := .obj (convertToSalesForceFormat pm (jsDelete entity "id")).1 }
          [("id", idv)]) := by
  intro pm cfg entity
  refine ⟨fun h => ?_, fun idv h ht => ?_, fun idv h ht hrest => ?_, fun idv h ht hrest => ?_⟩
  · rw [update, h]
  · simp [update, h, ht]
  · simp [update, h, ht, hrest]
  · simp [update, h, ht, List.length_eq_zero, hrest]

def pmC8 : PropertyMap := [("id", .basic "Id"), ("name", .basic "Name")]

def cfgC8 : SObjectConfig := { _objectName := some "Account" }

/-- C8 witness: the three behaviours at concrete inputs. -/
theorem update_strips_id_and_patches_witness :
    update pmC8 cfgC8 [("name", .str "N")] = .validationError ∧
    update pmC8 cfgC8 [("id", .str "001")] = .noRequest [("id", .str "001")] ∧
    update pmC8 cfgC8 [("id", .str "001"), ("name", .str "N")] = .requested
      { url := _objectUrlPath cfgC8 ++ jsTemplateString (.str "001")
        method := "patch"
        json := .obj (convertToSalesForceFormat pmC8
          (jsDelete [("id", .str "001"), ("name", .str "N")] "id")).1 }
      [("id", .str "001")] :=
  ⟨(update_strips_id_and_patches pmC8 cfgC8 _).1 rfl,
    (update_strips_id_and_patches pmC8 cfgC8 _).2.2.1 (.str "001") rfl rfl rfl,
    (update_strips_id_and_patches pmC8 cfgC8 _).2.2.2 (.str "001") rfl rfl
      (List.cons_ne_nil _ _)⟩

/-- Splitting the first backoff off an indexed range of backoffs. -/
theorem map_backoff_range_succ (f cr m : Nat) :
    (List.range (m + 1)).map (fun i => exponentialBackoffMs (cr + i) f) =
      exponentialBackoffMs cr f ::
        (List.range m).map (fun i => exponentialBackoffMs (cr + 1 + i) f) := by
  rw [List.range_succ_eq_map]
  simp only [List.map_cons, List.map_map]
  congr 1
  apply List.map_congr_left
  intro i _
  show exponentialBackoffMs (cr + Nat.succ i) f = exponentialBackoffMs (cr + 1 + i) f
  congr 1
  omega

/-- With an always-true predicate and a permanently failing operation, the
worker started at `currentRetry = cr` with `maxRetries = cr + k` makes
`k + 1` attempts, schedules the backoff of each visited `currentRetry`, and
settles with the last attempt's failure. -/
theorem executeWithRetryWorker_permafail {ε α : Type} (e : Nat → ε)
    (pp : Nat → Except ε α) (hp : ∀ n, pp n = .error (e n)) (f : Nat) :
    ∀ (k cr : Nat),
      executeWithRetryWorker pp (fun _ _ => true) (cr + k) cr f =
        { result := .error (e (cr + k)), attempts := k + 1,
          delays := (List.range (k + 1)).map
            (fun i => exponentialBackoffMs (cr + i) f) } := by
  intro k
  induction k with
  | zero =>
      intro cr
      rw [executeWithRetryWorker]
      simp only [hp]
      rw [dif_neg (fun h => absurd h.1 (by omega))]
      simp [List.range_succ]
  | succ k ih =>
      intro cr
      rw [executeWithRetryWorker]
      simp only [hp]
      rw [dif_pos ⟨by omega, trivial⟩]
      have harg : cr + (k + 1) = (cr + 1) + k := by omega
      rw [harg, ih (cr + 1)]
      simp only [RetryOutcome.mk.injEq, true_and]
      conv_rhs => rw [map_backoff_range_succ f cr (k + 1)]

/-- A defaulted numeric retry option is positive whenever its default is. -/
theorem jsOrDefault_pos (v : Option Nat) (d : Nat) (hd : 0 < d) :
    0 < jsOrDefault v d := by
  match v with
  | none => simpa [jsOrDefault] using hd
  | some n =>
      by_cases hn : n = 0
      · simpa [jsOrDefault, hn] using hd
      · simpa [jsOrDefault, hn] using Nat.pos_of_ne_zero hn

/-- C9: with an always-true retry predicate and `maxRetries: 3`, a
permanently failing operation is invoked exactly 4 times (1 initial + 3
retries), the failure of the final attempt propagates, and the scheduled
delays are `0` before the first attempt and `2^currentRetry *
retryBackoffFactor` before each retry — a strictly increasing sequence. -/
theorem executeWithRetry_maxRetries_three_attempts_four {ε α : Type}
    (rbf : Option Nat) (pp : Nat → Except ε α) (e : Nat → ε)
    (hp : ∀ n, pp n = .error (e n)) :
    executeWithRetry pp
        (some { maxRetries := some 3, retryBackoffFactor := rbf,
                retryPredicate := some (fun _ _ => true) }) =
      { result := .error (e 3), attempts := 4,
        delays := [0, 2 ^ 1 * jsOrDefault rbf 50, 2 ^ 2 * jsOrDefault rbf 50,
          2 ^ 3 * jsOrDefault rbf 50] } ∧
    List.Chain' (· < ·) [0, 2 ^ 1 * jsOrDefault rbf 50, 2 ^ 2 * jsOrDefault rbf 50,
      2 ^ 3 * jsOrDefault rbf 50] := by
  have hf : 0 < jsOrDefault rbf 50 := jsOrDefault_pos rbf 50 (by omega)
  constructor
  · show executeWithRetryWorker pp (fun _ _ => true) 3 0 (jsOrDefault rbf 50) = _
    rw [executeWithRetryWorker_permafail e pp hp (jsOrDefault rbf 50) 3 0]
    simp [List.range_succ, exponentialBackoffMs]
  · simp only [List.chain'_cons, List.chain'_singleton, and_true]
    norm_num
    omega

/-- C9 witness: the theorem at a concrete permanently failing operation
with `retryBackoffFactor` omitted. -/
theorem executeWithRetry_maxRetries_three_witness :
    executeWithRetry (fun _ => (Except.error 7 : Except Nat Nat))
        (some { maxRetries := some 3, retryBackoffFactor := none,
                retryPredicate := some (fun _ _ => true) }) =
      { result := .error 7, attempts := 4,
        delays := [0, 2 ^ 1 * jsOrDefault none 50, 2 ^ 2 * jsOrDefault none 50,
          2 ^ 3 * jsOrDefault none 50] } ∧
    List.Chain' (· < ·) [0, 2 ^ 1 * jsOrDefault none 50, 2 ^ 2 * jsOrDefault none 50,
      2 ^ 3 * jsOrDefault none 50] :=
  executeWithRetry_maxRetries_three_attempts_four none
    (fun _ => (Except.error 7 : Except Nat Nat)) (fun _ => 7) (fun _ => rfl)

/-- C10: `executeWithRetry` reads its numeric options with `||`-defaults,
so `maxRetries: 0` and `retryBackoffFactor: 0` are treated exactly like
omitting them (defaults 9 and 50) — and with `maxRetries: 0` and an
always-true predicate a permanently failing operation is invoked 10 times,
not once. -/
theorem executeWithRetry_zero_options_fall_back {ε α : Type} :
    (jsOrDefault (some 0) 9 = 9 ∧ jsOrDefault (some 0) 50 = 50) ∧
    (∀ (P : ε → Nat → Bool) (pp : Nat → Except ε α),
      executeWithRetry pp
          (some { maxRetries := some 0, retryBackoffFactor := some 0,
                  retryPredicate := some P }) =
        executeWithRetry pp (some { retryPredicate := some P })) ∧
    (∀ (pp : Nat → Except ε α) (e : Nat → ε), (∀ n, pp n = .error (e n)) →
      (executeWithRetry pp
          (some { maxRetries := some 0, retryBackoffFactor := some 0,
                  retryPredicate := some (fun _ _ => true) })).attempts = 10) := by
  refine ⟨⟨rfl, rfl⟩, fun P pp => rfl, fun pp e hp => ?_⟩
  show (executeWithRetryWorker pp (fun _ _ => true) 9 0 50).attempts = 10
  rw [executeWithRetryWorker_permafail e pp hp 50 9 0]

/-- C10 witness: a concrete permanently failing operation under
`maxRetries: 0` runs 10 attempts. -/
theorem executeWithRetry_zero_options_witness :
    (executeWithRetry (fun _ => (Except.error 7 : Except Nat Nat))
        (some { maxRetries := some 0, retryBackoffFactor := some 0,
                retryPredicate := some (fun _ _ => true) })).attempts = 10 :=
  executeWithRetry_zero_options_fall_back.2.2
    (fun _ => (Except.error 7 : Except Nat Nat)) (fun _ => 7) (fun _ => rfl)

theorem jsKeys_append {α : Type} (a b : List (String × α)) :
    jsKeys (a ++ b) = jsKeys a ++ jsKeys b := by
  simp [jsKeys]

theorem jsKeys_cons {α : Type} (k : String) (v : α) (fs : List (String × α)) :
    jsKeys ((k, v) :: fs) = k :: jsKeys fs := rfl

theorem jsGet_cons {α : Type} (k : String) (v : α) (fs : List (String × α)) (l : String) :
    jsGet ((k, v) :: fs) l = if k = l then some v else jsGet fs l := by
  by_cases h : k = l <;> simp [jsGet, List.find?_cons, h]

theorem jsGet_eq_none_of_not_mem {α : Type} {fs : List (String × α)} {k : String}
    (h : k ∉ jsKeys fs) : jsGet fs k = none := by
  induction fs with
  | nil => rfl
  | cons kv rest ih =>
      obtain ⟨k0, v0⟩ := kv
      rw [jsKeys_cons] at h
      rw [jsGet_cons, if_neg (fun he => h (by rw [← he]; exact List.mem_cons_self _ _))]
      exact ih (fun hm => h (List.mem_cons_of_mem _ hm))

theorem jsGet_mem_keys {α : Type} {fs : List (String × α)} {k : String} {v : α}
    (h : jsGet fs k = some v) : k ∈ jsKeys fs := by
  by_contra hk
  rw [jsGet_eq_none_of_not_mem hk] at h
  cases h

theorem jsGet_isSome_of_mem {α : Type} {fs : List (String × α)} {k : String}
    (h : k ∈ jsKeys fs) : ∃ v, jsGet fs k = some v := by
  induction fs with
  | nil => cases h
  | cons kv rest ih =>
      obtain ⟨k0, v0⟩ := kv
      by_cases he : k0 = k
      · exact ⟨v0, by rw [jsGet_cons, if_pos he]⟩
      · rw [jsKeys_cons, List.mem_cons] at h
        rcases h with h | h
        · exact absurd h.symm he
        · obtain ⟨v, hv⟩ := ih h
          exact ⟨v, by rw [jsGet_cons, if_neg he, hv]⟩

theorem jsGet_mem_values {α : Type} {fs : List (String × α)} {k : String} {v : α}
    (h : jsGet fs k = some v) : v ∈ fs.map Prod.snd := by
  induction fs with
  | nil => cases h
  | cons kv rest ih =>
      obtain ⟨k0, v0⟩ := kv
      rw [jsGet_cons] at h
      by_cases he : k0 = k
      · rw [if_pos he, Option.some.injEq] at h
        simp [h]
      · rw [if_neg he] at h
        simp [ih h]

theorem jsSet_fresh {α : Type} {fs : List (String × α)} {k : String} (v : α)
    (h : k ∉ jsKeys fs) : jsSet fs k v = fs ++ [(k, v)] := by
  have hany : fs.any (fun kv => kv.1 == k) = false := by
    by_contra hc
    rw [Bool.not_eq_false, List.any_eq_true] at hc
    obtain ⟨kv, hm, he⟩ := hc
    exact h (beq_iff_eq.mp he ▸ List.mem_map_of_mem (fun kv => kv.1) hm)
  rw [jsSet, hany]
  rfl

theorem jsDelete_of_not_mem {α : Type} {fs : List (String × α)} {k : String}
    (h : k ∉ jsKeys fs) : jsDelete fs k = fs := by
  induction fs with
  | nil => rfl
  | cons kv rest ih =>
      obtain ⟨k0, v0⟩ := kv
      rw [jsKeys_cons] at h
      have h0 : k0 ≠ k := fun he => h (by simp [he])
      simp only [jsDelete, List.filter_cons]
      rw [if_pos (by simpa using h0)]
      have := ih (fun hm => h (List.mem_cons_of_mem _ hm))
      simpa [jsDelete] using this

theorem jsDelete_append {α : Type} (a b : List (String × α)) (k : String) :
    jsDelete (a ++ b) k = jsDelete a k ++ jsDelete b k := by
  simp [jsDelete, List.filter_append]

theorem jsDelete_cons_self {α : Type} {rest : List (String × α)} {k : String} (v : α)
    (h : k ∉ jsKeys rest) : jsDelete ((k, v) :: rest) k = rest := by
  simp only [jsDelete, List.filter_cons]
  rw [if_neg (by simp)]
  simpa [jsDelete] using jsDelete_of_not_mem h

/-- The rename loop of `convertPropertyNames`, when every key maps to a
fresh target (distinct from every present key and from the other targets),
renames each field in place order: the renamed fields are appended after
the untouched `acc` region, in the order the keys were processed. -/
theorem renameLoop_fresh (propertyNameMap : List (String × String)) (T : String → String) :
    ∀ (todo acc : List (String × JVal)),
      (∀ kv ∈ todo, jsGet propertyNameMap kv.1 = some (T kv.1)) →
      (jsKeys todo).Nodup →
      ((jsKeys todo).map T).Nodup →
      (∀ k ∈ jsKeys todo, T k ∉ jsKeys todo ∧ T k ∉ jsKeys acc) →
      (∀ k ∈ jsKeys todo, k ∉ jsKeys acc) →
      renameLoop propertyNameMap false (todo ++ acc) (jsKeys todo) =
        acc ++ todo.map (fun kv => (T kv.1, kv.2)) := by
  intro todo
  induction todo with
  | nil => intro acc _ _ _ _ _; simp [renameLoop]
  | cons kv rest ih =>
      obtain ⟨k, v⟩ := kv
      intro acc hmap hN hTN hfresh hacc
      rw [jsKeys_cons] at hN hTN hfresh hacc
      have hkmem : k ∈ jsKeys ((k, v) :: rest) := by simp [jsKeys_cons]
      have hmapk : jsGet propertyNameMap k = some (T k) :=
        hmap (k, v) (List.mem_cons_self _ _)
      have hTk := hfresh k (List.mem_cons_self _ _)
      have hTkne : T k ≠ k := fun he => hTk.1 (by rw [he]; exact List.mem_cons_self _ _)
      have hkrest : k ∉ jsKeys rest := by
        intro hm; exact (List.nodup_cons.mp hN).1 hm
      have hkacc : k ∉ jsKeys acc := hacc k (List.mem_cons_self _ _)
      rw [jsKeys_cons, renameLoop]
      simp only [renameStep, hmapk]
      rw [if_pos hTkne]
      have hget : jsGet (((k, v) :: rest) ++ acc) k = some v := by
        rw [List.cons_append, jsGet_cons, if_pos rfl]
      rw [hget]
      have hTnotin : T k ∉ jsKeys (((k, v) :: rest) ++ acc) := by
        rw [jsKeys_append, jsKeys_cons]
        intro hm
        rcases List.mem_append.mp hm with hm | hm
        · exact hTk.1 hm
        · exact hTk.2 hm
      rw [Option.getD_some, jsSet_fresh v hTnotin]
      have hdel : jsDelete ((((k, v) :: rest) ++ acc) ++ [(T k, v)]) k =
          rest ++ (acc ++ [(T k, v)]) := by
        rw [jsDelete_append, jsDelete_append]
        rw [jsDelete_cons_self v hkrest, jsDelete_of_not_mem hkacc,
          jsDelete_of_not_mem (by simp [jsKeys]; exact fun he => hTkne he.symm)]
        simp
      rw [hdel]
      rw [ih (acc ++ [(T k, v)])
        (fun kw hm => hmap kw (List.mem_cons_of_mem _ hm))
        (List.nodup_cons.mp hN).2
        (List.nodup_cons.mp hTN).2
        ?fresh ?acc]
      · simp
      case fresh =>
        intro k2 hm
        have h2 := hfresh k2 (List.mem_cons_of_mem _ hm)
        refine ⟨fun hmm => h2.1 (List.mem_cons_of_mem _ hmm), ?_⟩
        rw [jsKeys_append]
        intro hmm
        rcases List.mem_append.mp hmm with hmm | hmm
        · exact h2.2 hmm
        · have : T k2 = T k := by simpa [jsKeys] using hmm
          exact (List.nodup_cons.mp hTN).1 (this ▸ List.mem_map_of_mem T hm)
      case acc =>
        intro k2 hm
        rw [jsKeys_append]
        intro hmm
        rcases List.mem_append.mp hmm with hmm | hmm
        · exact hacc k2 (List.mem_cons_of_mem _ hm) hmm
        · have : k2 = T k := by simpa [jsKeys] using hmm
          exact (hfresh k (List.mem_cons_self _ _)).1 (this ▸ List.mem_cons_of_mem _ hm)

/-- Keys to the left that do not hold `k` do not affect `jsGet`. -/
theorem jsGet_append_of_not_mem_left {α : Type} {acc : List (String × α)} {k : String}
    (fs : List (String × α)) (h : k ∉ jsKeys acc) :
    jsGet (acc ++ fs) k = jsGet fs k := by
  induction acc with
  | nil => rfl
  | cons kw acct ih =>
      obtain ⟨k0, v0⟩ := kw
      rw [jsKeys_cons] at h
      rw [List.cons_append, jsGet_cons,
        if_neg (fun he => h (by rw [← he]; exact List.mem_cons_self _ _))]
      exact ih (fun hm => h (List.mem_cons_of_mem _ hm))

/-- The condition under which `convertToSalesForceFormat`'s drop loop keeps
a converted field. -/
def keepB (reverseMap : List (String × String)) (includeNestedProperties : Bool)
    (k : String) (v : JVal) : Bool :=
  !(!(jsTruthyStr (jsGet reverseMap k)) || isUndef v ||
      (jsIncludes k "." && !includeNestedProperties))

/-- The drop loop, over a snapshot of the keys of the no-duplicate region
to the right of `acc`, filters that region by `keepB`. -/
theorem dropLoop_filter (reverseMap : List (String × String)) (inc : Bool) :
    ∀ (todo acc : List (String × JVal)),
      (jsKeys (acc ++ todo)).Nodup →
      dropLoop reverseMap inc (acc ++ todo) (jsKeys todo) =
        acc ++ todo.filter (fun kv => keepB reverseMap inc kv.1 kv.2) := by
  intro todo
  induction todo with
  | nil => intro acc _; simp [dropLoop]
  | cons kv rest ih =>
      obtain ⟨k, v⟩ := kv
      intro acc hN
      have hN0 := hN
      rw [jsKeys_append, jsKeys_cons, List.nodup_append] at hN0
      have hkacc : k ∉ jsKeys acc := fun hm => hN0.2.2 hm (List.mem_cons_self _ _)
      have hkrest : k ∉ jsKeys rest := (List.nodup_cons.mp hN0.2.1).1
      have hget : jsGet (acc ++ ((k, v) :: rest)) k = some v := by
        rw [jsGet_append_of_not_mem_left _ hkacc, jsGet_cons, if_pos rfl]
      rw [jsKeys_cons, dropLoop, dropStep, hget, Option.getD_some]
      by_cases hD : (!(jsTruthyStr (jsGet reverseMap k)) || isUndef v ||
          (jsIncludes k "." && !inc)) = true
      · rw [if_pos hD]
        have hdel : jsDelete (acc ++ ((k, v) :: rest)) k = acc ++ rest := by
          rw [jsDelete_append, jsDelete_of_not_mem hkacc, jsDelete_cons_self v hkrest]
        rw [hdel]
        rw [ih acc ?nodup]
        · have : keepB reverseMap inc k v = false := by
            rw [keepB, hD]; rfl
          rw [List.filter_cons_of_neg (by simpa using this)]
        case nodup =>
          rw [jsKeys_append] at hN ⊢
          rw [jsKeys_cons] at hN
          exact (List.Sublist.append_left (List.sublist_cons_self k _) _).nodup hN
      · rw [if_neg hD]
        have hre : acc ++ ((k, v) :: rest) = (acc ++ [(k, v)]) ++ rest := by simp
        rw [hre, ih (acc ++ [(k, v)]) (by rw [← hre]; exact hN)]
        have : keepB reverseMap inc k v = true := by
          rw [keepB, Bool.eq_false_iff.mpr hD]; rfl
        rw [List.filter_cons_of_pos (by simpa using this)]
        simp

/-- A property map holding only plain string mappings, as the claim under
test supposes. -/
def toPM (pmB : List (String × String)) : PropertyMap :=
  pmB.map (fun kv => (kv.1, PropValue.basic kv.2))

theorem basicEntries_toPM (pmB : List (String × String)) :
    basicEntries (toPM pmB) = pmB := by
  induction pmB with
  | nil => rfl
  | cons kv rest ih => simp [toPM, basicEntries] at ih ⊢; exact ih

theorem jsKeys_toPM (pmB : List (String × String)) :
    jsKeys (toPM pmB) = jsKeys pmB := by
  simp [toPM, jsKeys]

/-- Building the reverse map from a string-only property map with
pairwise-distinct remote names just swaps every pair, in order. -/
theorem getReversePropertyMap_toPM (pmB : List (String × String))
    (hrN : (pmB.map Prod.snd).Nodup) :
    getReversePropertyMap (toPM pmB) = pmB.map (fun kv => (kv.2, kv.1)) := by
  suffices hgen : ∀ (todo : List (String × String)) (acc : List (String × String)),
      (todo.map Prod.snd).Nodup →
      (∀ kv ∈ todo, kv.2 ∉ jsKeys acc) →
      todo.foldl (fun reverseMap kv => jsSet reverseMap kv.2 kv.1) acc =
        acc ++ todo.map (fun kv => (kv.2, kv.1)) by
    have h := hgen pmB [] hrN (by simp [jsKeys])
    rw [getReversePropertyMap, toPM, List.foldl_map]
    simpa using h
  intro todo
  induction todo with
  | nil => intro acc _ _; simp
  | cons kv rest ih =>
      obtain ⟨k, r⟩ := kv
      intro acc hN hacc
      simp only [List.foldl_cons]
      rw [jsSet_fresh k (hacc (k, r) (List.mem_cons_self _ _))]
      rw [ih (acc ++ [(r, k)]) (by simpa using hN.sublist (List.sublist_cons_self _ _)) ?frh]
      · simp
      case frh =>
        intro kw hm
        rw [jsKeys_append]
        intro hmm
        rcases List.mem_append.mp hmm with hmm | hmm
        · exact hacc kw (List.mem_cons_of_mem _ hm) hmm
        · have : kw.2 = r := by simpa [jsKeys] using hmm
          rw [List.map_cons, List.nodup_cons] at hN
          exact hN.1 (by rw [← this]; exact List.mem_map.mpr ⟨kw, hm, rfl⟩)

/-- Flattening a mapping whose values are all scalars is the identity. -/
theorem flattenFields_scalar :
    ∀ fs : List (String × JVal), (∀ kv ∈ fs, isScalar kv.2 = true) →
      flattenFields fs = fs := by
  intro fs h
  induction fs with
  | nil => rfl
  | cons kv rest ih =>
      obtain ⟨k, v⟩ := kv
      have hv := h (k, v) (List.mem_cons_self _ _)
      have hrest := ih (fun kw hm => h kw (List.mem_cons_of_mem _ hm))
      cases v <;> simp [isScalar, jsTypeofObject] at hv <;>
        simp [flattenFields, flattenEntry, hrest]

/-- Looking a remote name up in the swapped map recovers the friendly name
that mapped to it. -/
theorem jsGet_swap (pmB : List (String × String)) (hrN : (pmB.map Prod.snd).Nodup) :
    ∀ {k r : String}, jsGet pmB k = some r →
      jsGet (pmB.map (fun kv => (kv.2, kv.1))) r = some k := by
  induction pmB with
  | nil => intro k r h; cases h
  | cons kv rest ih =>
      obtain ⟨k0, r0⟩ := kv
      intro k r h
      rw [List.map_cons, List.nodup_cons] at hrN
      rw [jsGet_cons] at h
      by_cases he : k0 = k
      · rw [if_pos he, Option.some.injEq] at h
        rw [List.map_cons, jsGet_cons, if_pos h]
        exact congrArg some he
      · rw [if_neg he] at h
        rw [List.map_cons, jsGet_cons]
        have hr0 : r0 ≠ r := by
          intro heq
          exact hrN.1 (heq ▸ jsGet_mem_values h)
        rw [if_neg hr0]
        exact ih hrN.2 h

theorem insertSorted_perm (s : String) (l : List String) :
    (insertSorted s l).Perm (s :: l) := by
  induction l with
  | nil => exact List.Perm.refl _
  | cons t rest ih =>
      rw [insertSorted]
      by_cases h : s ≤ t
      · rw [if_pos h]
      · rw [if_neg h]
        exact (List.Perm.cons t ih).trans (List.Perm.swap s t rest)

theorem jsSortKeys_perm (l : List String) : (jsSortKeys l).Perm l := by
  induction l with
  | nil => exact List.Perm.refl _
  | cons s rest ih =>
      exact (insertSorted_perm s (jsSortKeys rest)).trans (List.Perm.cons s ih)

theorem mem_jsSortKeys {l : List String} {k : String} :
    k ∈ jsSortKeys l ↔ k ∈ l :=
  (jsSortKeys_perm l).mem_iff

theorem jsSortKeys_nodup {l : List String} (h : l.Nodup) : (jsSortKeys l).Nodup :=
  ((jsSortKeys_perm l).nodup_iff).mpr h

/-- `lodashPick` unfolds one name at a time. -/
theorem lodashPick_cons (fields : List (String × JVal)) (n : String)
    (names : List String) :
    lodashPick fields (n :: names) =
      match jsGet fields n with
      | some v => (n, v) :: lodashPick fields names
      | none => lodashPick fields names := by
  cases hv : jsGet fields n <;> simp [lodashPick, List.filterMap_cons, hv]

/-- `jsGet` through `_.pick`: a named key reads through to the underlying
object, an unnamed key is gone. -/
theorem jsGet_lodashPick (fields : List (String × JVal)) :
    ∀ (names : List String), names.Nodup → ∀ (k : String),
      jsGet (lodashPick fields names) k =
        if k ∈ names then jsGet fields k else none := by
  intro names
  induction names with
  | nil => intro _ k; simp [lodashPick, jsGet]
  | cons n rest ih =>
      intro hN k
      rw [List.nodup_cons] at hN
      have hrec := ih hN.2 k
      rw [lodashPick_cons]
      by_cases he : n = k
      · subst he
        rw [if_pos (List.mem_cons_self _ _)]
        cases hv : jsGet fields n with
        | some v => simp [hv, jsGet_cons]
        | none =>
            simp only [hv]
            rw [hrec, if_neg hN.1]
      · cases hv : jsGet fields n with
        | some v =>
            simp only [hv]
            rw [jsGet_cons, if_neg he, hrec]
            by_cases hm : k ∈ rest
            · rw [if_pos hm, if_pos (List.mem_cons_of_mem _ hm)]
            · rw [if_neg hm, if_neg (by
                intro hc
                rcases List.mem_cons.mp hc with hc | hc
                · exact he hc.symm
                · exact hm hc)]
        | none =>
            simp only [hv]
            rw [hrec]
            by_cases hm : k ∈ rest
            · rw [if_pos hm, if_pos (List.mem_cons_of_mem _ hm)]
            · rw [if_neg hm, if_neg (by
                intro hc
                rcases List.mem_cons.mp hc with hc | hc
                · exact he hc.symm
                · exact hm hc)]

/-- `jsGet` through a value filter on a no-duplicate object. -/
theorem jsGet_filter (p : JVal → Bool) :
    ∀ (fields : List (String × JVal)), (jsKeys fields).Nodup → ∀ (k : String),
      jsGet (fields.filter (fun kv => p kv.2)) k =
        match jsGet fields k with
        | some v => if p v then some v else none
        | none => none := by
  intro fields
  induction fields with
  | nil => intro _ k; rfl
  | cons kv rest ih =>
      obtain ⟨k0, v0⟩ := kv
      intro hN k
      rw [jsKeys_cons, List.nodup_cons] at hN
      have hrec := ih hN.2 k
      by_cases he : k0 = k
      · subst he
        by_cases hp : p v0 = true
        · simp [List.filter_cons, hp, jsGet_cons]
        · simp [List.filter_cons, hp, jsGet_cons, ih hN.2 k0,
            jsGet_eq_none_of_not_mem hN.1]
      · by_cases hp : p v0 = true
        · simp [List.filter_cons, hp, jsGet_cons, he, hrec]
        · simp [List.filter_cons, hp, jsGet_cons, he, hrec]

theorem jsKeys_map_rename (T : String → String) (l : List (String × JVal)) :
    jsKeys (l.map (fun kv => (T kv.1, kv.2))) = (jsKeys l).map T := by
  simp [jsKeys, List.map_map]

/-- C6 (amended): for a property map of only plain string mappings — with
distinct friendly names, distinct dot-free remote names disjoint from the
friendly names, and non-empty friendly names — and an entity populated with
exactly the friendly fields carrying scalar values, converting to the
remote format and back returns the original entity up to key order, minus
the fields whose value is `undefined`: a key reads back to a value exactly
when the original entity held that (defined) value. -/
theorem convert_roundtrip_restores_entity
    (pmB : List (String × String)) (entity : List (String × JVal))
    (hfN : (jsKeys pmB).Nodup)
    (hrN : (pmB.map Prod.snd).Nodup)
    (hdot : ∀ r ∈ pmB.map Prod.snd, jsIncludes r "." = false)
    (hdisj : ∀ r ∈ pmB.map Prod.snd, r ∉ jsKeys pmB)
    (hne : ∀ k ∈ jsKeys pmB, k ≠ "")
    (heN : (jsKeys entity).Nodup)
    (hperm : (jsKeys entity).Perm (jsKeys pmB))
    (hscal : ∀ kv ∈ entity, isScalar kv.2 = true) :
    ∀ k v,
      jsGet (convertFromSalesForceFormat (toPM pmB)
        ((convertToSalesForceFormat (toPM pmB) entity).1)) k = some v ↔
      (jsGet entity k = some v ∧ isUndef v = false) := by
  have heK : ∀ k0, k0 ∈ jsKeys entity ↔ k0 ∈ jsKeys pmB := fun k0 => hperm.mem_iff
  have hT : ∀ kv ∈ entity, jsGet pmB kv.1 = some ((jsGet pmB kv.1).getD kv.1) := by
    intro kv hm
    obtain ⟨r, hr⟩ := jsGet_isSome_of_mem
      ((heK kv.1).mp (List.mem_map.mpr ⟨kv, hm, rfl⟩))
    rw [hr]
    rfl
  set T : String → String := fun k => (jsGet pmB k).getD k with hTdef
  -- the value of every renamed key lies among the remote names
  have hTvals : ∀ k0 ∈ jsKeys entity, T k0 ∈ pmB.map Prod.snd := by
    intro k0 hm
    obtain ⟨kv, hkv, rfl⟩ := List.mem_map.mp hm
    exact jsGet_mem_values (hT kv hkv)
  -- swap lookups recover the friendly name
  have hswap : ∀ k0 ∈ jsKeys entity,
      jsGet (pmB.map (fun kv => (kv.2, kv.1))) (T k0) = some k0 := by
    intro k0 hm
    obtain ⟨kv, hkv, rfl⟩ := List.mem_map.mp hm
    exact jsGet_swap pmB hrN (hT kv hkv)
  -- T is injective on the entity's keys
  have hTinj : ∀ k1 ∈ jsKeys entity, ∀ k2 ∈ jsKeys entity, T k1 = T k2 → k1 = k2 := by
    intro k1 h1 k2 h2 he
    have := hswap k1 h1
    rw [he, hswap k2 h2, Option.some.injEq] at this
    exact this.symm
  have hTN : ((jsKeys entity).map T).Nodup := heN.map_on hTinj
  have hreverse : getReversePropertyMap (toPM pmB) = pmB.map (fun kv => (kv.2, kv.1)) :=
    getReversePropertyMap_toPM pmB hrN
  have hflat : flattenFields entity = entity := flattenFields_scalar entity hscal
  have hfresh : ∀ k0 ∈ jsKeys entity,
      T k0 ∉ jsKeys entity ∧ T k0 ∉ jsKeys ([] : List (String × JVal)) := by
    intro k0 hm
    refine ⟨fun hc => hdisj (T k0) (hTvals k0 hm) ((heK (T k0)).mp hc), by simp [jsKeys]⟩
  have hconv : convertPropertyNames entity pmB =
      entity.map (fun kv => (T kv.1, kv.2)) := by
    show renameLoop pmB false (flattenFields entity)
      (jsKeys (flattenFields entity)) = _
    rw [hflat]
    have h := renameLoop_fresh pmB T entity [] hT heN hTN hfresh
      (by intro k0 _; simp [jsKeys])
    simpa using h
  have hkeep : ∀ kv ∈ entity,
      keepB (getReversePropertyMap (toPM pmB)) false (T kv.1) kv.2 =
        !isUndef kv.2 := by
    intro kv hm
    have hk : kv.1 ∈ jsKeys entity := List.mem_map.mpr ⟨kv, hm, rfl⟩
    have h1 : jsGet (getReversePropertyMap (toPM pmB)) (T kv.1) = some kv.1 := by
      rw [hreverse]
      exact hswap kv.1 hk
    have h2 : jsIncludes (T kv.1) "." = false := hdot _ (hTvals kv.1 hk)
    have h3 : kv.1 ≠ "" := hne kv.1 ((heK kv.1).mp hk)
    rw [keepB, h1, h2]
    simp [jsTruthyStr, h3]
  have htoRemote : (convertToSalesForceFormat (toPM pmB) entity).1 =
      (entity.filter (fun kv => !isUndef kv.2)).map (fun kv => (T kv.1, kv.2)) := by
    simp only [convertToSalesForceFormat]
    rw [basicEntries_toPM, hconv]
    have hRN : (jsKeys (entity.map (fun kv => (T kv.1, kv.2)))).Nodup := by
      rw [jsKeys_map_rename]
      exact hTN
    have hdrop := dropLoop_filter (getReversePropertyMap (toPM pmB)) false
      (entity.map (fun kv => (T kv.1, kv.2))) [] (by simpa using hRN)
    simp only [List.nil_append] at hdrop
    rw [hdrop, List.filter_map]
    have hfc : List.filter
        ((fun kv => keepB (getReversePropertyMap (toPM pmB)) false kv.1 kv.2) ∘
          (fun kv => (T kv.1, kv.2))) entity =
        List.filter (fun kv => !isUndef kv.2) entity :=
      List.filter_congr (fun kv hm => hkeep kv hm)
    rw [hfc]
  set E2 : List (String × JVal) := entity.filter (fun kv => !isUndef kv.2) with hE2
  have hE2keys : jsKeys E2 ⊆ jsKeys entity := by
    intro k hm
    rw [hE2] at hm
    obtain ⟨kv, hkv, rfl⟩ := List.mem_map.mp hm
    exact List.mem_map.mpr ⟨kv, List.mem_of_mem_filter hkv, rfl⟩
  have hE2keysSub : (jsKeys E2).Sublist (jsKeys entity) := by
    show (E2.map (fun kv : String × JVal => kv.1)).Sublist
      (entity.map (fun kv => kv.1))
    rw [hE2]
    exact (List.filter_sublist entity).map _
  have hE2N : (jsKeys E2).Nodup := hE2keysSub.nodup heN
  set T2 : String → String :=
    fun r => (jsGet (pmB.map (fun kv => (kv.2, kv.1))) r).getD r with hT2
  have hT2T : ∀ k0 ∈ jsKeys entity, T2 (T k0) = k0 := by
    intro k0 hm
    show (jsGet (pmB.map (fun kv => (kv.2, kv.1))) (T k0)).getD (T k0) = k0
    rw [hswap k0 hm]
    rfl
  set R : List (String × JVal) := E2.map (fun kv => (T kv.1, kv.2)) with hR
  have hRkeys : jsKeys R = (jsKeys E2).map T := jsKeys_map_rename T E2
  have hRN2 : (jsKeys R).Nodup := by
    rw [hRkeys]
    exact (hE2keysSub.map T).nodup hTN
  have hmapR : ∀ kv ∈ R, jsGet (getReversePropertyMap (toPM pmB)) kv.1 =
      some (T2 kv.1) := by
    intro kv hm
    rw [hR] at hm
    obtain ⟨kw, hkw, rfl⟩ := List.mem_map.mp hm
    have hk : kw.1 ∈ jsKeys entity := hE2keys (List.mem_map.mpr ⟨kw, hkw, rfl⟩)
    rw [hreverse, hT2T kw.1 hk]
    exact hswap kw.1 hk
  have hT2N : ((jsKeys R).map T2).Nodup := by
    rw [hRkeys, List.map_map]
    have hid : (jsKeys E2).map (T2 ∘ T) = (jsKeys E2).map id :=
      List.map_congr_left (fun k0 hm => hT2T k0 (hE2keys hm))
    rw [hid, List.map_id]
    exact hE2N
  have hfresh2 : ∀ r ∈ jsKeys R,
      T2 r ∉ jsKeys R ∧ T2 r ∉ jsKeys ([] : List (String × JVal)) := by
    intro r hm
    rw [hRkeys] at hm
    obtain ⟨k0, hk0, rfl⟩ := List.mem_map.mp hm
    have hk0e : k0 ∈ jsKeys entity := hE2keys hk0
    rw [hT2T k0 hk0e]
    refine ⟨fun hc => ?_, by simp [jsKeys]⟩
    rw [hRkeys] at hc
    obtain ⟨k1, hk1, he1⟩ := List.mem_map.mp hc
    exact hdisj k0 (he1 ▸ hTvals k1 (hE2keys hk1)) ((heK k0).mp hk0e)
  have hscalR : ∀ kv ∈ R, isScalar kv.2 = true := by
    intro kv hm
    rw [hR] at hm
    obtain ⟨kw, hkw, rfl⟩ := List.mem_map.mp hm
    exact hscal kw (List.mem_of_mem_filter hkw)
  have hconv2 : convertPropertyNames R (getReversePropertyMap (toPM pmB)) = E2 := by
    show renameLoop _ false (flattenFields R) (jsKeys (flattenFields R)) = _
    rw [flattenFields_scalar R hscalR]
    have h := renameLoop_fresh (getReversePropertyMap (toPM pmB)) T2 R [] hmapR
      hRN2 hT2N hfresh2 (by intro k0 _; simp [jsKeys])
    simp only [List.append_nil, List.nil_append] at h
    rw [h, hR, List.map_map]
    have hmc : E2.map ((fun kv : String × JVal => (T2 kv.1, kv.2)) ∘
        (fun kv : String × JVal => (T kv.1, kv.2))) = E2.map id := by
      apply List.map_congr_left
      intro kv hm
      have hk : kv.1 ∈ jsKeys entity := hE2keys (List.mem_map.mpr ⟨kv, hm, rfl⟩)
      show (T2 (T kv.1), kv.2) = kv
      rw [hT2T kv.1 hk]
    rw [hmc, List.map_id]
  intro k v
  rw [convertFromSalesForceFormat, htoRemote, hconv2]
  rw [getPropertyNames, jsKeys_toPM]
  rw [jsGet_lodashPick E2 (jsSortKeys (jsKeys pmB)) (jsSortKeys_nodup hfN) k]
  by_cases hk : k ∈ jsKeys pmB
  · rw [if_pos (mem_jsSortKeys.mpr hk)]
    rw [hE2, jsGet_filter (fun v => !isUndef v) entity heN k]
    cases hw : jsGet entity k with
    | some w =>
        by_cases hu : isUndef w = true
        · simp only [hu]
          constructor
          · intro hc; simp at hc
          · rintro ⟨hv, hvu⟩
            rw [Option.some.injEq] at hv
            rw [← hv] at hvu
            rw [hu] at hvu
            cases hvu
        · simp only [Bool.not_eq_true] at hu
          simp [hu]
          exact fun h => h ▸ hu
    | none => simp
  · rw [if_neg (fun hc => hk (mem_jsSortKeys.mp hc))]
    constructor
    · intro hc; cases hc
    · rintro ⟨hv, _⟩
      exact absurd ((heK k).mp (jsGet_mem_keys hv)) hk

def pmC6 : List (String × String) := [("a", "B.C")]

def entityC6 : List (String × JVal) := [("a", .str "x")]

/-- C6 counterexample: with the plain string mapping `{a: 'B.C'}` (a
dot-delimited remote name, as the spec itself allows for nested fields) and
the entity `{a: 'x'}`, the round trip loses the defined field `a` entirely
(`convertToSalesForceFormat` drops dot-nested keys when
`includeNestedProperties` is false), so the result is `{}`, not the
original entity. -/
theorem convert_roundtrip_loses_nested_remote_names :
    convertFromSalesForceFormat (toPM pmC6)
      ((convertToSalesForceFormat (toPM pmC6) entityC6).1) = [] ∧
    jsGet entityC6 "a" = some (.str "x") ∧
    isUndef (.str "x") = false :=
  ⟨rfl, rfl, rfl⟩

def pmC6w : List (String × String) := [("id", "Id"), ("name", "Name"), ("age", "Age__c")]

def entityC6w : List (String × JVal) :=
  [("name", .str "Fluffy"), ("id", .str "001"), ("age", .undef)]

/-- C6 witness: the amended round trip at a concrete three-field map and
entity — the defined field reads back, and the `undefined`-valued field is
dropped. -/
theorem convert_roundtrip_restores_entity_witness :
    (jsGet (convertFromSalesForceFormat (toPM pmC6w)
        ((convertToSalesForceFormat (toPM pmC6w) entityC6w).1)) "name" =
        some (.str "Fluffy") ↔
      (jsGet entityC6w "name" = some (.str "Fluffy") ∧
        isUndef (.str "Fluffy") = false)) ∧
    (jsGet (convertFromSalesForceFormat (toPM pmC6w)
        ((convertToSalesForceFormat (toPM pmC6w) entityC6w).1)) "age" =
        some JVal.undef ↔
      (jsGet entityC6w "age" = some JVal.undef ∧ isUndef JVal.undef = false)) :=
  ⟨convert_roundtrip_restores_entity pmC6w entityC6w (by decide) (by decide)
      (by decide) (by decide) (by decide) (by decide) (by decide) (by decide)
      "name" (.str "Fluffy"),
    convert_roundtrip_restores_entity pmC6w entityC6w (by decide) (by decide)
      (by decide) (by decide) (by decide) (by decide) (by decide) (by decide)
      "age" JVal.undef⟩
